import Mathlib

/-!
Verification of the lightprobe baking core: a shallow embedding of the
algorithmically interesting functions of the add-on (ray–triangle
intersection, bilinear texture sampling, the radiance-projection failsafe,
the capture-frame selection loop, and the simplex neighbor-graph builder),
together with theorems settling the specified properties.  Numeric code is
embedded over exact rationals.
-/

namespace Lightprobe

/-! ## Vector model (mathutils.Vector restricted to 3 components, over ℚ) -/

structure Vec3 where
  x : ℚ
  y : ℚ
  z : ℚ
deriving DecidableEq, Repr

def Vec3.sub (a b : Vec3) : Vec3 := ⟨a.x - b.x, a.y - b.y, a.z - b.z⟩

def Vec3.dot (a b : Vec3) : ℚ := a.x * b.x + a.y * b.y + a.z * b.z

def Vec3.cross (a b : Vec3) : Vec3 :=
  ⟨a.y * b.z - a.z * b.y, a.z * b.x - a.x * b.z, a.x * b.y - a.y * b.x⟩

def Vec3.smul (c : ℚ) (a : Vec3) : Vec3 := ⟨c * a.x, c * a.y, c * a.z⟩

instance : Sub Vec3 := ⟨Vec3.sub⟩

theorem Vec3.sub_def (a b : Vec3) : a - b = ⟨a.x - b.x, a.y - b.y, a.z - b.z⟩ := rfl

def vzero : Vec3 := ⟨0, 0, 0⟩

/-! ## Ray–triangle intersection (source: `triangle_intersection`) -/

/-- The `epsilon = 0.000001` constant of `triangle_intersection`. -/
def epsilon : ℚ := 1 / 1000000

/-- Shallow embedding of `triangle_intersection(v1, v2, v3, ray, origin)`:
Möller–Trumbore returning barycentric coordinates on acceptance, `none`
otherwise. -/
def triangle_intersection (v1 v2 v3 ray origin : Vec3) : Option Vec3 :=
  let edge1 := v2 - v1
  let edge2 := v3 - v1
  let P := ray.cross edge2
  let det := edge1.dot P
  if det > -epsilon ∧ det < epsilon then none
  else
    let inv_det := 1 / det
    let T := origin - v1
    let u := T.dot P * inv_det
    if u < 0 ∨ u > 1 then none
    else
      let Q := T.cross edge1
      let v := ray.dot Q * inv_det
      if v < 0 ∨ u + v > 1 then none
      else
        let t := edge2.dot Q * inv_det
        if t > epsilon then some ⟨u, v, 1 - u - v⟩
        else none

/-- The Möller–Trumbore determinant, written as a flat formula. -/
def mtDet (v1 v2 v3 ray : Vec3) : ℚ := (v2 - v1).dot (ray.cross (v3 - v1))

/-- The barycentric coordinate `u`, written as a flat formula. -/
def mtU (v1 v2 v3 ray origin : Vec3) : ℚ :=
  (origin - v1).dot (ray.cross (v3 - v1)) * (1 / mtDet v1 v2 v3 ray)

/-- The barycentric coordinate `v`, written as a flat formula. -/
def mtV (v1 v2 v3 ray origin : Vec3) : ℚ :=
  ray.dot ((origin - v1).cross (v2 - v1)) * (1 / mtDet v1 v2 v3 ray)

/-- The ray parameter `t`, written as a flat formula. -/
def mtT (v1 v2 v3 ray origin : Vec3) : ℚ :=
  (v3 - v1).dot ((origin - v1).cross (v2 - v1)) * (1 / mtDet v1 v2 v3 ray)

/-- Helper characterization of `triangle_intersection` as a single flat
rejection condition.  Shared by the claim theorems below. -/
theorem triangle_intersection_characterization (v1 v2 v3 ray origin : Vec3) :
    triangle_intersection v1 v2 v3 ray origin =
      if |mtDet v1 v2 v3 ray| < epsilon ∨
          mtU v1 v2 v3 ray origin < 0 ∨ mtU v1 v2 v3 ray origin > 1 ∨
          mtV v1 v2 v3 ray origin < 0 ∨
          mtU v1 v2 v3 ray origin + mtV v1 v2 v3 ray origin > 1 ∨
          mtT v1 v2 v3 ray origin ≤ epsilon
      then none
      else some ⟨mtU v1 v2 v3 ray origin, mtV v1 v2 v3 ray origin,
        1 - mtU v1 v2 v3 ray origin - mtV v1 v2 v3 ray origin⟩ := by
  have key : triangle_intersection v1 v2 v3 ray origin =
      (if mtDet v1 v2 v3 ray > -epsilon ∧ mtDet v1 v2 v3 ray < epsilon then none
       else if mtU v1 v2 v3 ray origin < 0 ∨ mtU v1 v2 v3 ray origin > 1 then none
       else if mtV v1 v2 v3 ray origin < 0 ∨
           mtU v1 v2 v3 ray origin + mtV v1 v2 v3 ray origin > 1 then none
       else if mtT v1 v2 v3 ray origin > epsilon then
         some ⟨mtU v1 v2 v3 ray origin, mtV v1 v2 v3 ray origin,
           1 - mtU v1 v2 v3 ray origin - mtV v1 v2 v3 ray origin⟩
       else none) := rfl
  rw [key]
  set D := mtDet v1 v2 v3 ray with hDdef
  set U := mtU v1 v2 v3 ray origin with hUdef
  set V := mtV v1 v2 v3 ray origin with hVdef
  set T := mtT v1 v2 v3 ray origin with hTdef
  by_cases h1 : D > -epsilon ∧ D < epsilon
  · rw [if_pos h1, if_pos (Or.inl (abs_lt.mpr ⟨h1.1, h1.2⟩))]
  · rw [if_neg h1]
    by_cases h2 : U < 0 ∨ U > 1
    · rw [if_pos h2, if_pos (by tauto)]
    · rw [if_neg h2]
      by_cases h3 : V < 0 ∨ U + V > 1
      · rw [if_pos h3, if_pos (by tauto)]
      · rw [if_neg h3]
        by_cases h4 : T > epsilon
        · rw [if_pos h4, if_neg ?hno]
          case hno =>
            intro hC
            rcases hC with h | h | h | h | h | h
            · exact h1 ⟨(abs_lt.mp h).1, (abs_lt.mp h).2⟩
            · exact h2 (Or.inl h)
            · exact h2 (Or.inr h)
            · exact h3 (Or.inl h)
            · exact h3 (Or.inr h)
            · exact absurd h4 h.not_lt
        · rw [if_neg h4,
            if_pos (Or.inr (Or.inr (Or.inr (Or.inr (Or.inr (not_lt.mp h4))))))]

/-- C4: the Möller–Trumbore intersection test returns no hit exactly when the
determinant magnitude is below epsilon `1e-6`, or `u` falls outside `[0,1]`,
or `v < 0`, or `u + v > 1`, or the intersection parameter `t` is not greater
than the same epsilon; otherwise it returns the barycentric weights
`(u, v, w = 1 - u - v)`. -/
theorem moller_trumbore_accept_reject_spec (v1 v2 v3 ray origin : Vec3) :
    triangle_intersection v1 v2 v3 ray origin =
      if |mtDet v1 v2 v3 ray| < epsilon ∨
          mtU v1 v2 v3 ray origin < 0 ∨ mtU v1 v2 v3 ray origin > 1 ∨
          mtV v1 v2 v3 ray origin < 0 ∨
          mtU v1 v2 v3 ray origin + mtV v1 v2 v3 ray origin > 1 ∨
          mtT v1 v2 v3 ray origin ≤ epsilon
      then none
      else some ⟨mtU v1 v2 v3 ray origin, mtV v1 v2 v3 ray origin,
        1 - mtU v1 v2 v3 ray origin - mtV v1 v2 v3 ray origin⟩ :=
  triangle_intersection_characterization v1 v2 v3 ray origin

/-- C10: whenever `triangle_intersection` accepts a hit and returns weights
`(u, v, w)`, those weights are valid barycentric coordinates in exact
arithmetic: each lies in `[0,1]`, `u + v ≤ 1`, `w = 1 - u - v`, and the three
weights sum to `1`. -/
theorem accepted_weights_are_barycentric (v1 v2 v3 ray origin : Vec3) (u v w : ℚ)
    (h : triangle_intersection v1 v2 v3 ray origin = some ⟨u, v, w⟩) :
    0 ≤ u ∧ u ≤ 1 ∧ 0 ≤ v ∧ v ≤ 1 ∧ 0 ≤ w ∧ w ≤ 1 ∧
      u + v ≤ 1 ∧ w = 1 - u - v ∧ u + v + w = 1 := by
  rw [triangle_intersection_characterization] at h
  by_cases hc : |mtDet v1 v2 v3 ray| < epsilon ∨
      mtU v1 v2 v3 ray origin < 0 ∨ mtU v1 v2 v3 ray origin > 1 ∨
      mtV v1 v2 v3 ray origin < 0 ∨
      mtU v1 v2 v3 ray origin + mtV v1 v2 v3 ray origin > 1 ∨
      mtT v1 v2 v3 ray origin ≤ epsilon
  · rw [if_pos hc] at h
    exact absurd h (by simp)
  · rw [if_neg hc] at h
    push_neg at hc
    obtain ⟨hD, hU0, hU1, hV0, hUV, hT⟩ := hc
    rw [Option.some.injEq, Vec3.mk.injEq] at h
    obtain ⟨hu, hv, hw⟩ := h
    subst hu
    subst hv
    subst hw
    refine ⟨hU0, hU1, hV0, by linarith, by linarith, by linarith, hUV, rfl, by ring⟩

/-- Witness for C10: a concrete accepted hit with weights `(1/3, 1/3, 1/3)`. -/
theorem accepted_weights_are_barycentric_witness :
    0 ≤ (1 / 3 : ℚ) ∧ (1 / 3 : ℚ) ≤ 1 ∧ 0 ≤ (1 / 3 : ℚ) ∧ (1 / 3 : ℚ) ≤ 1 ∧
      0 ≤ (1 / 3 : ℚ) ∧ (1 / 3 : ℚ) ≤ 1 ∧ (1 / 3 : ℚ) + 1 / 3 ≤ 1 ∧
      (1 / 3 : ℚ) = 1 - 1 / 3 - 1 / 3 ∧ (1 / 3 : ℚ) + 1 / 3 + 1 / 3 = 1 :=
  accepted_weights_are_barycentric ⟨1, 0, 0⟩ ⟨0, 1, 0⟩ ⟨0, 0, 1⟩ ⟨1, 1, 1⟩ vzero
    (1 / 3) (1 / 3) (1 / 3)
    (by norm_num [triangle_intersection, Vec3.sub_def, Vec3.dot, Vec3.cross, vzero, epsilon])

/-! ## Texture sampling (source: `sample_image`, `bilinear_interpolate`) -/

/-- A Blender image buffer: `width`/`height`/`channels` and the flat
row-major float pixel list (`image.pixels[:]`). -/
structure Image where
  width : ℕ
  height : ℕ
  channels : ℕ
  pixels : List ℚ
deriving DecidableEq, Repr

/-- Python list indexing on the flat pixel buffer: a negative index within
range wraps around from the end, an index outside `[-len, len)` raises an
`IndexError` (modelled as `none`). -/
def py_index (l : List ℚ) (i : ℤ) : Option ℚ :=
  if 0 ≤ i then l[i.toNat]?
  else if 0 ≤ i + l.length then l[(i + l.length).toNat]?
  else none

/-- Embedding of `sample_image(channels, width, height, pixel_data, loc)`:
reads the three channel values of the pixel at integer location `(x, y)`.
(`height` is unused, exactly as in the source.) -/
def sample_image (channels width height : ℕ) (pixel_data : List ℚ) (x y : ℤ) :
    Option (ℚ × ℚ × ℚ) :=
  let pix_loc : ℤ := y * width * channels + x * channels
  match py_index pixel_data pix_loc, py_index pixel_data (pix_loc + 1),
      py_index pixel_data (pix_loc + 2) with
  | some r, some g, some b => some (r, g, b)
  | _, _, _ => none

/-- The four bounding pixel coordinates (after the edge-clamp boundary
conditions) and the two pre-clamp lerp factors computed by
`bilinear_interpolate`. -/
structure BilinearSetup where
  left : ℤ
  right : ℤ
  bottom : ℤ
  top : ℤ
  lerp_x : ℚ
  lerp_y : ℚ
deriving DecidableEq, Repr

/-- Embedding of the coordinate computation of `bilinear_interpolate`:
the `ceil`ed bounding coordinates, the lerp factors (computed before the
boundary conditions, as in the source), and then the sequential boundary
clamps.  The re-bound `let`s mirror the Python reassignments. -/
def bilinear_setup (width height : ℚ) (uv : ℚ × ℚ) : BilinearSetup :=
  let px_x := 1 / width
  let px_y := 1 / height
  let half_px_x := 1 / (2 * width)
  let half_px_y := 1 / (2 * height)
  let left_coord := ⌈width * (uv.1 - half_px_x) - 1⌉
  let right_coord := ⌈width * (uv.1 + half_px_x) - 1⌉
  let bottom_coord := ⌈height * (uv.2 - half_px_y) - 1⌉
  let top_coord := ⌈height * (uv.2 + half_px_y) - 1⌉
  let lerp_x := (uv.1 - ((left_coord : ℚ) + 1/2) / width) / px_x
  let lerp_y := (uv.2 - ((bottom_coord : ℚ) + 1/2) / height) / px_y
  let right_coord := if (right_coord : ℚ) + 1 > width then left_coord else right_coord
  let left_coord := if left_coord < 0 then right_coord else left_coord
  let top_coord := if (top_coord : ℚ) + 1 > height then bottom_coord else top_coord
  let bottom_coord := if bottom_coord < 0 then top_coord else bottom_coord
  ⟨left_coord, right_coord, bottom_coord, top_coord, lerp_x, lerp_y⟩

/-- `mathutils.Vector.lerp` on RGB triples: `a.lerp(b, t) = a + t * (b - a)`. -/
def lerp3 (a b : ℚ × ℚ × ℚ) (t : ℚ) : ℚ × ℚ × ℚ :=
  (a.1 + t * (b.1 - a.1), a.2.1 + t * (b.2.1 - a.2.1), a.2.2 + t * (b.2.2 - a.2.2))

/-- Embedding of `bilinear_interpolate(image, uv)`: compute the bounding
coordinates and lerp factors, read the four corner pixels, and blend. -/
def bilinear_interpolate (image : Image) (uv : ℚ × ℚ) : Option (ℚ × ℚ × ℚ) :=
  let s := bilinear_setup image.width image.height uv
  match sample_image image.channels image.width image.height image.pixels s.left s.bottom,
      sample_image image.channels image.width image.height image.pixels s.right s.bottom,
      sample_image image.channels image.width image.height image.pixels s.right s.top,
      sample_image image.channels image.width image.height image.pixels s.left s.top with
  | some lower_left, some lower_right, some upper_right, some upper_left =>
    let top := lerp3 upper_left upper_right s.lerp_x
    let bottom := lerp3 lower_left lower_right s.lerp_x
    some (lerp3 bottom top s.lerp_y)
  | _, _, _, _ => none

/-- Helper: one axis of the edge clamp.  With `x` standing for
`width·u - 1/2`, the raw coordinates are `⌈x⌉` (right) and `⌈x - 1⌉` (left);
if `-1 < x ≤ width` then both clamped coordinates land in `[0, width)`. -/
theorem edge_clamp_bounds (w : ℕ) (x : ℚ) (hw : 0 < w)
    (h0 : (-1 : ℚ) < x) (h1 : x ≤ (w : ℚ)) :
    0 ≤ (if (⌈x⌉ : ℚ) + 1 > (w : ℚ) then ⌈x - 1⌉ else ⌈x⌉) ∧
      (if (⌈x⌉ : ℚ) + 1 > (w : ℚ) then ⌈x - 1⌉ else ⌈x⌉) < (w : ℤ) ∧
      0 ≤ (if ⌈x - 1⌉ < 0 then (if (⌈x⌉ : ℚ) + 1 > (w : ℚ) then ⌈x - 1⌉ else ⌈x⌉)
            else ⌈x - 1⌉) ∧
      (if ⌈x - 1⌉ < 0 then (if (⌈x⌉ : ℚ) + 1 > (w : ℚ) then ⌈x - 1⌉ else ⌈x⌉)
            else ⌈x - 1⌉) < (w : ℤ) := by
  have hceil0 : 0 ≤ ⌈x⌉ := by
    have : (-1 : ℤ) < ⌈x⌉ := Int.lt_ceil.mpr (by push_cast; linarith)
    omega
  have hceilw : ⌈x⌉ ≤ (w : ℤ) := Int.ceil_le.mpr (by push_cast; linarith)
  have hsub : ⌈x - 1⌉ = ⌈x⌉ - 1 := by
    have := Int.ceil_sub_int x 1
    push_cast at this
    simpa using this
  have hw1 : (1 : ℤ) ≤ (w : ℤ) := by exact_mod_cast hw
  by_cases hclamp : (⌈x⌉ : ℚ) + 1 > (w : ℚ)
  · have hgt : (w : ℤ) < ⌈x⌉ + 1 := by exact_mod_cast hclamp
    have heqw : ⌈x⌉ = (w : ℤ) := by omega
    rw [if_pos hclamp, hsub, heqw]
    have hL : ¬((w : ℤ) - 1 < 0) := by omega
    rw [if_neg hL]
    omega
  · have hle : ⌈x⌉ + 1 ≤ (w : ℤ) := by exact_mod_cast not_lt.mp hclamp
    rw [if_neg hclamp, hsub]
    by_cases hL : ⌈x⌉ - 1 < 0
    · rw [if_pos hL]
      omega
    · rw [if_neg hL]
      omega

/-- C2 (amended): for every image with positive width and height, the four
bounding-pixel coordinates computed by bilinear sampling are edge-clamped
into `[0, width) × [0, height)` for every UV coordinate in
`(-1/(2·width), 1 + 1/(2·width)] × (-1/(2·height), 1 + 1/(2·height)]` — a
range containing all of `[0,1]²` and slightly beyond.  (For UV farther
outside the clamp fails; see the counterexample.) -/
theorem bilinear_coords_edge_clamped (width height : ℕ) (u v : ℚ)
    (hw : 0 < width) (hh : 0 < height)
    (hu0 : -(1 / (2 * (width : ℚ))) < u) (hu1 : u ≤ 1 + 1 / (2 * (width : ℚ)))
    (hv0 : -(1 / (2 * (height : ℚ))) < v) (hv1 : v ≤ 1 + 1 / (2 * (height : ℚ))) :
    0 ≤ (bilinear_setup width height (u, v)).left ∧
      (bilinear_setup width height (u, v)).left < (width : ℤ) ∧
      0 ≤ (bilinear_setup width height (u, v)).right ∧
      (bilinear_setup width height (u, v)).right < (width : ℤ) ∧
      0 ≤ (bilinear_setup width height (u, v)).bottom ∧
      (bilinear_setup width height (u, v)).bottom < (height : ℤ) ∧
      0 ≤ (bilinear_setup width height (u, v)).top ∧
      (bilinear_setup width height (u, v)).top < (height : ℤ) := by
  have hW : (0 : ℚ) < (width : ℚ) := by exact_mod_cast hw
  have hH : (0 : ℚ) < (height : ℚ) := by exact_mod_cast hh
  have eu1 : (width : ℚ) * (u + 1 / (2 * (width : ℚ))) - 1 = (width : ℚ) * u - 1/2 := by
    field_simp
    ring
  have eu2 : (width : ℚ) * (u - 1 / (2 * (width : ℚ))) - 1 =
      (width : ℚ) * u - 1/2 - 1 := by
    field_simp
    ring
  have ev1 : (height : ℚ) * (v + 1 / (2 * (height : ℚ))) - 1 =
      (height : ℚ) * v - 1/2 := by
    field_simp
    ring
  have ev2 : (height : ℚ) * (v - 1 / (2 * (height : ℚ))) - 1 =
      (height : ℚ) * v - 1/2 - 1 := by
    field_simp
    ring
  have hxu0 : (-1 : ℚ) < (width : ℚ) * u - 1/2 := by
    have h := mul_lt_mul_of_pos_left hu0 hW
    rw [show (width : ℚ) * -(1 / (2 * (width : ℚ))) = -(1/2) by field_simp; ring] at h
    linarith
  have hxu1 : (width : ℚ) * u - 1/2 ≤ (width : ℚ) := by
    have h := mul_le_mul_of_nonneg_left hu1 (le_of_lt hW)
    rw [show (width : ℚ) * (1 + 1 / (2 * (width : ℚ))) = (width : ℚ) + 1/2 by
      field_simp; ring] at h
    linarith
  have hxv0 : (-1 : ℚ) < (height : ℚ) * v - 1/2 := by
    have h := mul_lt_mul_of_pos_left hv0 hH
    rw [show (height : ℚ) * -(1 / (2 * (height : ℚ))) = -(1/2) by field_simp; ring] at h
    linarith
  have hxv1 : (height : ℚ) * v - 1/2 ≤ (height : ℚ) := by
    have h := mul_le_mul_of_nonneg_left hv1 (le_of_lt hH)
    rw [show (height : ℚ) * (1 + 1 / (2 * (height : ℚ))) = (height : ℚ) + 1/2 by
      field_simp; ring] at h
    linarith
  obtain ⟨hr0, hr1, hl0, hl1⟩ := edge_clamp_bounds width ((width : ℚ) * u - 1/2) hw hxu0 hxu1
  obtain ⟨ht0, ht1, hb0, hb1⟩ :=
    edge_clamp_bounds height ((height : ℚ) * v - 1/2) hh hxv0 hxv1
  simp only [bilinear_setup, eu1, eu2, ev1, ev2]
  exact ⟨hl0, hl1, hr0, hr1, hb0, hb1, ht0, ht1⟩

/-- Witness for C2: a 4×4 image sampled at the boundary UV `(9/8, 9/8)` of the
clamped range has all four bounding coordinates inside `[0, 4)`. -/
theorem bilinear_coords_edge_clamped_witness :
    0 ≤ (bilinear_setup ((4 : ℕ) : ℚ) ((4 : ℕ) : ℚ) (9/8, 9/8)).left ∧
      (bilinear_setup ((4 : ℕ) : ℚ) ((4 : ℕ) : ℚ) (9/8, 9/8)).left < ((4 : ℕ) : ℤ) ∧
      0 ≤ (bilinear_setup ((4 : ℕ) : ℚ) ((4 : ℕ) : ℚ) (9/8, 9/8)).right ∧
      (bilinear_setup ((4 : ℕ) : ℚ) ((4 : ℕ) : ℚ) (9/8, 9/8)).right < ((4 : ℕ) : ℤ) ∧
      0 ≤ (bilinear_setup ((4 : ℕ) : ℚ) ((4 : ℕ) : ℚ) (9/8, 9/8)).bottom ∧
      (bilinear_setup ((4 : ℕ) : ℚ) ((4 : ℕ) : ℚ) (9/8, 9/8)).bottom < ((4 : ℕ) : ℤ) ∧
      0 ≤ (bilinear_setup ((4 : ℕ) : ℚ) ((4 : ℕ) : ℚ) (9/8, 9/8)).top ∧
      (bilinear_setup ((4 : ℕ) : ℚ) ((4 : ℕ) : ℚ) (9/8, 9/8)).top < ((4 : ℕ) : ℤ) :=
  bilinear_coords_edge_clamped 4 4 (9/8) (9/8) (by norm_num) (by norm_num)
    (by norm_num) (by norm_num) (by norm_num) (by norm_num)

/-- Counterexample to C2 as stated: on a 1×1 image at UV `(2, 2)` (beyond
`[0,1]`) the clamped bounding coordinates are all `1`, outside `[0, 1)`, and
the interpolation actually indexes out of the pixel buffer (an `IndexError`,
modelled as `none`). -/
theorem bilinear_clamp_counterexample :
    (bilinear_setup ((1 : ℕ) : ℚ) ((1 : ℕ) : ℚ) (2, 2)).right = 1 ∧
      ¬((bilinear_setup ((1 : ℕ) : ℚ) ((1 : ℕ) : ℚ) (2, 2)).right < ((1 : ℕ) : ℤ)) ∧
      bilinear_interpolate ⟨1, 1, 3, [1, 2, 3]⟩ (2, 2) = none := by
  have hc1 : (⌈(1/2 : ℚ)⌉ : ℤ) = 1 := by
    rw [Int.ceil_eq_iff] <;> norm_num
  have hc2 : (⌈(3/2 : ℚ)⌉ : ℤ) = 2 := by
    rw [Int.ceil_eq_iff] <;> norm_num
  have hsetup : bilinear_setup ((1 : ℕ) : ℚ) ((1 : ℕ) : ℚ) (2, 2) =
      ⟨1, 1, 1, 1, 1/2, 1/2⟩ := by
    norm_num [bilinear_setup, hc1, hc2]
  have hsample : sample_image 3 1 1 [1, 2, 3] 1 1 = none := rfl
  refine ⟨by rw [hsetup], by rw [hsetup]; decide, ?_⟩
  unfold bilinear_interpolate
  dsimp only
  rw [hsetup]
  dsimp only
  rw [hsample]

/-- Helper: `lerp` with factor `1` returns the second endpoint. -/
theorem lerp3_one (a b : ℚ × ℚ × ℚ) : lerp3 a b 1 = b := by
  unfold lerp3
  obtain ⟨b1, b2, b3⟩ := b
  simp

/-- Helper: inside the buffer, a pixel read succeeds and the whole RGB read
is `some`. -/
theorem sample_image_spec (ch w h : ℕ) (pixels : List ℚ) (X Y : ℤ)
    (hch : 3 ≤ ch) (hlen : pixels.length = w * h * ch)
    (hX0 : 0 ≤ X) (hX : X < (w : ℤ)) (hY0 : 0 ≤ Y) (hY : Y < (h : ℤ)) :
    ∃ p, sample_image ch w h pixels X Y = some p := by
  set L : ℤ := Y * (w : ℤ) * (ch : ℤ) + X * (ch : ℤ) with hLdef
  have hwch : (0 : ℤ) ≤ (w : ℤ) * (ch : ℤ) := by positivity
  have hch' : (3 : ℤ) ≤ (ch : ℤ) := by exact_mod_cast hch
  have hL0 : 0 ≤ L := by
    have h1 : 0 ≤ Y * (w : ℤ) * (ch : ℤ) := by positivity
    have h2 : 0 ≤ X * (ch : ℤ) := by positivity
    omega
  have hL2 : L + 2 < (pixels.length : ℤ) := by
    have h1 : Y * (w : ℤ) * (ch : ℤ) ≤ ((h : ℤ) - 1) * ((w : ℤ) * (ch : ℤ)) := by
      have := mul_le_mul_of_nonneg_right (show Y ≤ (h : ℤ) - 1 by omega) hwch
      linarith [this, mul_assoc Y (w : ℤ) (ch : ℤ)]
    have h2 : X * (ch : ℤ) ≤ ((w : ℤ) - 1) * (ch : ℤ) := by
      exact mul_le_mul_of_nonneg_right (by omega) (by positivity)
    have hexp : ((h : ℤ) - 1) * ((w : ℤ) * (ch : ℤ)) + ((w : ℤ) - 1) * (ch : ℤ) =
        (w : ℤ) * (h : ℤ) * (ch : ℤ) - (ch : ℤ) := by ring
    have hcast : (pixels.length : ℤ) = (w : ℤ) * (h : ℤ) * (ch : ℤ) := by
      rw [hlen]
      push_cast
      ring
    omega
  have hk0 : L.toNat < pixels.length := by omega
  have hk1 : (L + 1).toNat < pixels.length := by omega
  have hk2 : (L + 2).toNat < pixels.length := by omega
  have e0 : py_index pixels L = some (pixels.get ⟨L.toNat, hk0⟩) := by
    unfold py_index
    rw [if_pos hL0, List.getElem?_eq_getElem hk0]
    rfl
  have e1 : py_index pixels (L + 1) = some (pixels.get ⟨(L + 1).toNat, hk1⟩) := by
    unfold py_index
    rw [if_pos (by omega), List.getElem?_eq_getElem hk1]
    rfl
  have e2 : py_index pixels (L + 2) = some (pixels.get ⟨(L + 2).toNat, hk2⟩) := by
    unfold py_index
    rw [if_pos (by omega), List.getElem?_eq_getElem hk2]
    rfl
  refine ⟨(pixels.get ⟨L.toNat, hk0⟩, pixels.get ⟨(L + 1).toNat, hk1⟩,
    pixels.get ⟨(L + 2).toNat, hk2⟩), ?_⟩
  unfold sample_image
  dsimp only
  rw [← hLdef, e0, e1, e2]

/-- Helper: at the exact center of pixel `(x, y)` the bounding coordinates
are `(x-1, x) × (y-1, y)` (with the lower ones clamped up at the image edge)
and both lerp factors are exactly `1`. -/
theorem bilinear_setup_at_center (w h x y : ℕ) (hw : 0 < w) (hh : 0 < h)
    (hx : x < w) (hy : y < h) :
    bilinear_setup (w : ℚ) (h : ℚ)
        (((x : ℚ) + 1/2) / (w : ℚ), ((y : ℚ) + 1/2) / (h : ℚ)) =
      ⟨if (x : ℤ) - 1 < 0 then (x : ℤ) else (x : ℤ) - 1, (x : ℤ),
       if (y : ℤ) - 1 < 0 then (y : ℤ) else (y : ℤ) - 1, (y : ℤ), 1, 1⟩ := by
  have hW : ((w : ℚ)) ≠ 0 := ne_of_gt (by exact_mod_cast hw)
  have hH : ((h : ℚ)) ≠ 0 := ne_of_gt (by exact_mod_cast hh)
  have eu1 : (w : ℚ) * (((x : ℚ) + 1/2) / (w : ℚ) + 1 / (2 * (w : ℚ))) - 1 =
      ((x : ℕ) : ℚ) := by
    field_simp
    ring
  have eu2 : (w : ℚ) * (((x : ℚ) + 1/2) / (w : ℚ) - 1 / (2 * (w : ℚ))) - 1 =
      ((x : ℚ)) - 1 := by
    field_simp
    ring
  have ev1 : (h : ℚ) * (((y : ℚ) + 1/2) / (h : ℚ) + 1 / (2 * (h : ℚ))) - 1 =
      ((y : ℕ) : ℚ) := by
    field_simp
    ring
  have ev2 : (h : ℚ) * (((y : ℚ) + 1/2) / (h : ℚ) - 1 / (2 * (h : ℚ))) - 1 =
      ((y : ℚ)) - 1 := by
    field_simp
    ring
  have ecx : (⌈((x : ℚ)) - 1⌉ : ℤ) = (x : ℤ) - 1 := by
    rw [Int.ceil_eq_iff]
    constructor <;> push_cast <;> linarith
  have ecy : (⌈((y : ℚ)) - 1⌉ : ℤ) = (y : ℤ) - 1 := by
    rw [Int.ceil_eq_iff]
    constructor <;> push_cast <;> linarith
  have hclampR : ¬((((x : ℤ) : ℚ)) + 1 > (w : ℚ)) := by
    push_cast
    have : (x : ℚ) + 1 ≤ (w : ℚ) := by exact_mod_cast Nat.succ_le_of_lt hx
    linarith
  have hclampT : ¬((((y : ℤ) : ℚ)) + 1 > (h : ℚ)) := by
    push_cast
    have : (y : ℚ) + 1 ≤ (h : ℚ) := by exact_mod_cast Nat.succ_le_of_lt hy
    linarith
  have hlerpx : (((x : ℚ) + 1/2) / (w : ℚ) -
      ((((x : ℤ) - 1 : ℤ) : ℚ) + 1/2) / (w : ℚ)) / (1 / (w : ℚ)) = 1 := by
    push_cast
    field_simp
    left
    ring
  have hlerpy : (((y : ℚ) + 1/2) / (h : ℚ) -
      ((((y : ℤ) - 1 : ℤ) : ℚ) + 1/2) / (h : ℚ)) / (1 / (h : ℚ)) = 1 := by
    push_cast
    field_simp
    left
    ring
  unfold bilinear_setup
  dsimp only
  rw [eu1, eu2, ev1, ev2, Int.ceil_natCast, Int.ceil_natCast, ecx, ecy,
    if_neg hclampR, if_neg hclampT, hlerpx, hlerpy]

/-- C7: bilinear sampling evaluated exactly at the center UV coordinate
`((x + 1/2)/width, (y + 1/2)/height)` of an in-bounds pixel `(x, y)` of a
well-formed image returns exactly that pixel's stored RGB value (which is a
successful read). -/
theorem bilinear_at_pixel_center (img : Image) (x y : ℕ)
    (hx : x < img.width) (hy : y < img.height) (hch : 3 ≤ img.channels)
    (hlen : img.pixels.length = img.width * img.height * img.channels) :
    bilinear_interpolate img
        (((x : ℚ) + 1/2) / (img.width : ℚ), ((y : ℚ) + 1/2) / (img.height : ℚ)) =
      sample_image img.channels img.width img.height img.pixels (x : ℤ) (y : ℤ) ∧
    (sample_image img.channels img.width img.height img.pixels
        (x : ℤ) (y : ℤ)).isSome = true := by
  obtain ⟨w, h, ch, pixels⟩ := img
  dsimp only at hx hy hch hlen ⊢
  have hw : 0 < w := lt_of_le_of_lt (Nat.zero_le x) hx
  have hh : 0 < h := lt_of_le_of_lt (Nat.zero_le y) hy
  have hsetup := bilinear_setup_at_center w h x y hw hh hx hy
  set XL : ℤ := if (x : ℤ) - 1 < 0 then (x : ℤ) else (x : ℤ) - 1 with hXL
  set YB : ℤ := if (y : ℤ) - 1 < 0 then (y : ℤ) else (y : ℤ) - 1 with hYB
  have hXL0 : 0 ≤ XL := by rw [hXL]; split <;> omega
  have hXLw : XL < (w : ℤ) := by
    have hxw : (x : ℤ) < (w : ℤ) := by exact_mod_cast hx
    rw [hXL]; split <;> omega
  have hYB0 : 0 ≤ YB := by rw [hYB]; split <;> omega
  have hYBh : YB < (h : ℤ) := by
    have hyh : (y : ℤ) < (h : ℤ) := by exact_mod_cast hy
    rw [hYB]; split <;> omega
  have hx0 : (0 : ℤ) ≤ (x : ℤ) := Int.natCast_nonneg x
  have hy0 : (0 : ℤ) ≤ (y : ℤ) := Int.natCast_nonneg y
  have hxw : (x : ℤ) < (w : ℤ) := by exact_mod_cast hx
  have hyh : (y : ℤ) < (h : ℤ) := by exact_mod_cast hy
  obtain ⟨pll, hpll⟩ := sample_image_spec ch w h pixels XL YB hch hlen hXL0 hXLw hYB0 hYBh
  obtain ⟨plr, hplr⟩ :=
    sample_image_spec ch w h pixels (x : ℤ) YB hch hlen hx0 hxw hYB0 hYBh
  obtain ⟨pur, hpur⟩ :=
    sample_image_spec ch w h pixels (x : ℤ) (y : ℤ) hch hlen hx0 hxw hy0 hyh
  obtain ⟨pul, hpul⟩ :=
    sample_image_spec ch w h pixels XL (y : ℤ) hch hlen hXL0 hXLw hy0 hyh
  refine ⟨?_, by rw [hpur]; rfl⟩
  unfold bilinear_interpolate
  dsimp only
  rw [hsetup]
  dsimp only
  rw [hpll, hplr, hpur, hpul]
  dsimp only
  rw [lerp3_one, lerp3_one]

/-- Witness for C7: on a concrete 2×2 RGB image, bilinear sampling at the
center of pixel `(1, 0)` returns exactly that pixel's stored value. -/
theorem bilinear_at_pixel_center_witness :
    bilinear_interpolate ⟨2, 2, 3, [10, 11, 12, 20, 21, 22, 30, 31, 32, 40, 41, 42]⟩
        ((((1 : ℕ) : ℚ) + 1/2) / ((2 : ℕ) : ℚ), (((0 : ℕ) : ℚ) + 1/2) / ((2 : ℕ) : ℚ)) =
      sample_image 3 2 2 [10, 11, 12, 20, 21, 22, 30, 31, 32, 40, 41, 42]
        ((1 : ℕ) : ℤ) ((0 : ℕ) : ℤ) ∧
    (sample_image 3 2 2 [10, 11, 12, 20, 21, 22, 30, 31, 32, 40, 41, 42]
        ((1 : ℕ) : ℤ) ((0 : ℕ) : ℤ)).isSome = true := by
  exact bilinear_at_pixel_center ⟨2, 2, 3, [10, 11, 12, 20, 21, 22, 30, 31, 32, 40, 41, 42]⟩
    1 0 (by decide) (by decide) (by decide) (by decide)

/-! ## Capture frame selection (source: `BakeCubemapOperator.execute`) -/

/-- Python `int()` on a fractional value: truncation toward zero. -/
def py_int (q : ℚ) : ℤ := if q < 0 then ⌈q⌉ else ⌊q⌋

/-- Number of iterations the `while cur_frame < end` loop performs from
cursor `cur` when the advance is positive; used as structural fuel. -/
def loop_fuel (endF adv cur : ℚ) : ℕ := (⌈(endF - cur) / adv⌉).toNat

/-- The `while cur_frame < end` loop: advance the fractional cursor by
`frame_advance`, then append the truncated frame unless it equals
`last_frame` (initially `None`). -/
def frame_loop (endF adv : ℚ) : ℕ → ℚ → Option ℤ → List ℤ
  | 0, _, _ => []
  | fuel + 1, cur, last =>
    if cur < endF then
      let f := py_int (cur + adv)
      if some f = last then frame_loop endF adv fuel (cur + adv) last
      else f :: frame_loop endF adv fuel (cur + adv) (some f)
    else []

/-- `all_frames`: the list is seeded with the start frame, then the loop
appends the selected frames; `frame_advance = fps / target_fps`. -/
def all_frames (start endF : ℤ) (fps target_fps : ℕ) : List ℤ :=
  let frame_advance : ℚ := (fps : ℚ) / (target_fps : ℚ)
  start :: frame_loop (endF : ℚ) frame_advance
      (loop_fuel (endF : ℚ) frame_advance (start : ℚ)) (start : ℚ) none

/-- Helper: with a positive advance, `loop_fuel` is exactly enough fuel —
any larger fuel computes the same list, so `frame_loop` at `loop_fuel` is
the while loop itself. -/
theorem frame_loop_fuel_irrelevant (endF adv : ℚ) (hadv : 0 < adv) :
    ∀ (fuel : ℕ) (cur : ℚ) (last : Option ℤ), loop_fuel endF adv cur ≤ fuel →
      frame_loop endF adv fuel cur last =
        frame_loop endF adv (loop_fuel endF adv cur) cur last := by
  intro fuel
  induction fuel with
  | zero =>
    intro cur last hle
    rw [Nat.le_zero.mp hle]
  | succ n ih =>
    intro cur last hle
    by_cases hcur : cur < endF
    · have hpos : 0 < ⌈(endF - cur) / adv⌉ :=
        Int.ceil_pos.mpr (div_pos (by linarith) hadv)
      have hstep : loop_fuel endF adv (cur + adv) + 1 = loop_fuel endF adv cur := by
        unfold loop_fuel
        have he : (endF - (cur + adv)) / adv = (endF - cur) / adv - 1 := by
          field_simp
          ring
        rw [he, Int.ceil_sub_one]
        omega
      have hle' : loop_fuel endF adv (cur + adv) ≤ n := by
        have : loop_fuel endF adv cur ≤ n + 1 := hle
        omega
      rw [← hstep]
      simp only [frame_loop]
      rw [if_pos hcur, if_pos hcur]
      by_cases hlast : some (py_int (cur + adv)) = last
      · rw [if_pos hlast, if_pos hlast, ih (cur + adv) last hle']
      · rw [if_neg hlast, if_neg hlast, ih (cur + adv) (some (py_int (cur + adv))) hle']
    · have h0 : loop_fuel endF adv cur = 0 := by
        unfold loop_fuel
        have hc : ⌈(endF - cur) / adv⌉ ≤ 0 :=
          Int.ceil_le.mpr (by
            push_cast
            exact div_nonpos_iff.mpr (Or.inr ⟨by linarith, hadv.le⟩))
        omega
      rw [h0]
      simp only [frame_loop]
      rw [if_neg hcur]

/-- Modelled from the spec's words: the list starts at the start frame; a
fractional cursor then repeatedly advances by `native_fps/target_fps`, and
the truncated integer frame is appended exactly when it differs from the
previously emitted frame.  Here the emission history is the accumulator list
and "the previously emitted frame" is its last element. -/
def spec_emit (endF adv : ℚ) : ℕ → ℚ → List ℤ → List ℤ
  | 0, _, emitted => emitted
  | fuel + 1, cur, emitted =>
    if cur < endF then
      let f := py_int (cur + adv)
      if emitted.getLast? = some f then spec_emit endF adv fuel (cur + adv) emitted
      else spec_emit endF adv fuel (cur + adv) (emitted ++ [f])
    else emitted

/-- Modelled from the spec's words: the full selected frame list. -/
def spec_capture_frames (start endF : ℤ) (fps target_fps : ℕ) : List ℤ :=
  let adv : ℚ := (fps : ℚ) / (target_fps : ℚ)
  start :: spec_emit (endF : ℚ) adv (loop_fuel (endF : ℚ) adv (start : ℚ)) (start : ℚ) []

/-- Helper: the accumulator formulation of the spec equals the
`last_frame`-register formulation of the code. -/
theorem spec_emit_eq (endF adv : ℚ) :
    ∀ (fuel : ℕ) (cur : ℚ) (emitted : List ℤ),
      spec_emit endF adv fuel cur emitted =
        emitted ++ frame_loop endF adv fuel cur emitted.getLast? := by
  intro fuel
  induction fuel with
  | zero =>
    intro cur emitted
    simp [spec_emit, frame_loop]
  | succ n ih =>
    intro cur emitted
    simp only [spec_emit, frame_loop]
    by_cases hcur : cur < endF
    · rw [if_pos hcur, if_pos hcur]
      by_cases hlast : emitted.getLast? = some (py_int (cur + adv))
      · rw [if_pos hlast, if_pos hlast.symm, ih, hlast]
      · rw [if_neg hlast, if_neg (fun hcon => hlast hcon.symm), ih]
        rw [List.getLast?_concat]
        simp [List.append_assoc]
    · rw [if_neg hcur, if_neg hcur, List.append_nil]

/-- Helper simp lemma for evaluating the loop: a `some` frame never equals
the initial `None` register. -/
theorem some_frame_ne_none (z : ℤ) : (some z = (none : Option ℤ)) = False := by simp

/-- C1: the capture frame list starts at the start frame and then repeatedly
advances a fractional cursor by `native_fps/target_fps`, appending the
truncated integer frame exactly when it differs from the previously emitted
frame (for all inputs the code list equals the spec-worded
`spec_capture_frames`); in particular for start=1, end=10, native fps 24,
target fps 24 the list is exactly `[1,…,10]`, and for target fps 12
consecutive emitted frames never repeat and advance strictly
monotonically. -/
theorem capture_frames_follow_spec :
    (∀ (start endF : ℤ) (fps target_fps : ℕ),
        all_frames start endF fps target_fps =
          spec_capture_frames start endF fps target_fps) ∧
      all_frames 1 10 24 24 = [1, 2, 3, 4, 5, 6, 7, 8, 9, 10] ∧
      List.Chain' (fun a b => a < b) (all_frames 1 10 24 12) := by
  refine ⟨?_, ?_, ?_⟩
  · intro start endF fps target_fps
    unfold all_frames spec_capture_frames
    dsimp only
    rw [spec_emit_eq]
    simp
  · norm_num [all_frames, loop_fuel, frame_loop, py_int, some_frame_ne_none]
  · have hc2 : (⌈(9/2 : ℚ)⌉ : ℤ) = 5 := by
      rw [Int.ceil_eq_iff]
      norm_num
    norm_num [all_frames, loop_fuel, frame_loop, py_int, some_frame_ne_none, hc2,
      List.chain'_cons]

/-- Counterexample to C8 as stated: with start=1, end=10 and advance `19/2`
(native fps 19, target fps 2), the distance 9 from start to end is not an
integer multiple of the advance (`9 / (19/2) = 18/19` has denominator 19),
yet the last appended frame is 10, which does not exceed the end frame. -/
theorem frame_list_last_not_exceeding_counterexample :
    ((9 : ℚ) / ((19 : ℚ) / 2)).den ≠ 1 ∧
      all_frames 1 10 19 2 = [1, 10] ∧
      (all_frames 1 10 19 2).getLast? = some 10 ∧ ¬((10 : ℤ) > 10) := by
  have hden : ((9 : ℚ) / ((19 : ℚ) / 2)).den = 19 := by
    norm_num [Rat.den_div_eq_of_coprime]
  have hc : (⌈(18/19 : ℚ)⌉ : ℤ) = 1 := by
    rw [Int.ceil_eq_iff]
    norm_num
  have hfl : (⌊(21/2 : ℚ)⌋ : ℤ) = 10 := by
    rw [Int.floor_eq_iff]
    norm_num
  have hlist : all_frames 1 10 19 2 = [1, 10] := by
    norm_num [all_frames, loop_fuel, frame_loop, py_int, hc, hfl, some_frame_ne_none]
  refine ⟨by omega, hlist, by rw [hlist]; rfl, by omega⟩

/-- C8 (amended): the selected capture frame list is not always bounded by
the end frame: the loop advances the cursor strictly past `end` before the
final append, and the truncated final frame can exceed the end frame — with
start=1, end=10 and advance 2 (native fps 24, target fps 12) the final
appended frame is 11 > 10 — though for a fractional advance the truncated
final cursor may instead still equal the end frame. -/
theorem frame_list_can_exceed_end :
    all_frames 1 10 24 12 = [1, 3, 5, 7, 9, 11] ∧
      (all_frames 1 10 24 12).getLast? = some 11 ∧ (10 : ℤ) < 11 := by
  have hc2 : (⌈(9/2 : ℚ)⌉ : ℤ) = 5 := by
    rw [Int.ceil_eq_iff]
    norm_num
  have hlist : all_frames 1 10 24 12 = [1, 3, 5, 7, 9, 11] := by
    norm_num [all_frames, loop_fuel, frame_loop, py_int, some_frame_ne_none, hc2]
  refine ⟨hlist, by rw [hlist]; rfl, by omega⟩

/-! ## Simplex neighbor graph (source: `get_all_lightprobe_data`, the
manual neighbor construction loop) -/

/-- The `to_match` set: the vertex indices of a simplex with the entry at
position `vi` removed (`to_match = set(list(simp).pop(vert_idx_idx))`). -/
def face_to_match (s : List ℕ) (vi : ℕ) : Finset ℕ := (s.eraseIdx vi).toFinset

/-- The inner search loop: scan the simplices with a running index `j`,
skip the simplex being processed, and return the first index whose vertex
set strictly contains `to_match` (`to_match < try_match`), else `none`. -/
def find_neighbor : List (List ℕ) → ℕ → Finset ℕ → ℕ → Option ℕ
  | [], _, _, _ => none
  | t :: rest, simp_idx, to_match, j =>
    if j = simp_idx then find_neighbor rest simp_idx to_match (j + 1)
    else if to_match ⊂ t.toFinset then some j
    else find_neighbor rest simp_idx to_match (j + 1)

/-- One simplex's neighbor row: one search per vertex position. -/
def simplex_neighbors (simplices : List (List ℕ)) (simp_idx : ℕ) (s : List ℕ) :
    List (Option ℕ) :=
  (List.range s.length).map fun vi =>
    find_neighbor simplices simp_idx (face_to_match s vi) 0

/-- The whole neighbor structure, one row per simplex. -/
def build_neighbors (simplices : List (List ℕ)) : List (List (Option ℕ)) :=
  simplices.enum.map fun p => simplex_neighbors simplices p.1 p.2

/-- Helper: characterization of a failed neighbor search. -/
theorem find_neighbor_none_iff (si : ℕ) (F : Finset ℕ) :
    ∀ (l : List (List ℕ)) (j : ℕ),
      find_neighbor l si F j = none ↔
        ∀ k, k < l.length → j + k = si ∨ ¬F ⊂ (l.getD k []).toFinset := by
  intro l
  induction l with
  | nil =>
    intro j
    simp [find_neighbor]
  | cons t rest ih =>
    intro j
    simp only [find_neighbor]
    by_cases hj : j = si
    · rw [if_pos hj, ih (j + 1)]
      constructor
      · intro hloop k hk
        match k with
        | 0 => exact Or.inl (by omega)
        | m + 1 =>
          rcases hloop m (by simpa using hk) with he | hne
          · exact Or.inl (by omega)
          · exact Or.inr (by simpa using hne)
      · intro hloop m hm
        rcases hloop (m + 1) (by simpa using Nat.succ_lt_succ hm) with he | hne
        · exact Or.inl (by omega)
        · exact Or.inr (by simpa using hne)
    · rw [if_neg hj]
      by_cases hss : F ⊂ t.toFinset
      · rw [if_pos hss]
        constructor
        · intro hcon
          exact absurd hcon (by simp)
        · intro hloop
          rcases hloop 0 (by simp) with he | hne
          · exact absurd (by omega : j = si) hj
          · exact absurd hss (by simpa using hne)
      · rw [if_neg hss, ih (j + 1)]
        constructor
        · intro hloop k hk
          match k with
          | 0 => exact Or.inr (by simpa using hss)
          | m + 1 =>
            rcases hloop m (by simpa using hk) with he | hne
            · exact Or.inl (by omega)
            · exact Or.inr (by simpa using hne)
        · intro hloop m hm
          rcases hloop (m + 1) (by simpa using Nat.succ_lt_succ hm) with he | hne
          · exact Or.inl (by omega)
          · exact Or.inr (by simpa using hne)

/-- Helper: characterization of a successful neighbor search: the returned
index is the first qualifying one in scan order. -/
theorem find_neighbor_some_iff (si : ℕ) (F : Finset ℕ) :
    ∀ (l : List (List ℕ)) (j n : ℕ),
      find_neighbor l si F j = some n ↔
        ∃ k, k < l.length ∧ n = j + k ∧ n ≠ si ∧ F ⊂ (l.getD k []).toFinset ∧
          ∀ m, m < k → j + m = si ∨ ¬F ⊂ (l.getD m []).toFinset := by
  intro l
  induction l with
  | nil =>
    intro j n
    simp [find_neighbor]
  | cons t rest ih =>
    intro j n
    simp only [find_neighbor]
    by_cases hj : j = si
    · rw [if_pos hj, ih (j + 1) n]
      constructor
      · rintro ⟨k, hk, hn, hnsi, hss, hmin⟩
        refine ⟨k + 1, by simpa using Nat.succ_lt_succ hk, by omega, hnsi,
          by simpa using hss, ?_⟩
        intro m hm
        match m with
        | 0 => exact Or.inl (by omega)
        | m' + 1 =>
          rcases hmin m' (by omega) with he | hne
          · exact Or.inl (by omega)
          · exact Or.inr (by simpa using hne)
      · rintro ⟨k, hk, hn, hnsi, hss, hmin⟩
        match k with
        | 0 => exact absurd (by omega : n = si) hnsi
        | k' + 1 =>
          refine ⟨k', by simpa using hk, by omega, hnsi, by simpa using hss, ?_⟩
          intro m hm
          rcases hmin (m + 1) (by omega) with he | hne
          · exact Or.inl (by omega)
          · exact Or.inr (by simpa using hne)
    · rw [if_neg hj]
      by_cases hss : F ⊂ t.toFinset
      · rw [if_pos hss]
        constructor
        · intro hsome
          rw [Option.some.injEq] at hsome
          refine ⟨0, by simp, by omega, by omega, by simpa using hss, ?_⟩
          intro m hm
          exact absurd hm (Nat.not_lt_zero m)
        · rintro ⟨k, hk, hn, hnsi, hss', hmin⟩
          match k with
          | 0 =>
            rw [show n = j by omega]
          | k' + 1 =>
            rcases hmin 0 (by omega) with he | hne
            · exact absurd (by omega : j = si) hj
            · exact absurd hss (by simpa using hne)
      · rw [if_neg hss, ih (j + 1) n]
        constructor
        · rintro ⟨k, hk, hn, hnsi, hss', hmin⟩
          refine ⟨k + 1, by simpa using Nat.succ_lt_succ hk, by omega, hnsi,
            by simpa using hss', ?_⟩
          intro m hm
          match m with
          | 0 => exact Or.inr (by simpa using hss)
          | m' + 1 =>
            rcases hmin m' (by omega) with he | hne
            · exact Or.inl (by omega)
            · exact Or.inr (by simpa using hne)
        · rintro ⟨k, hk, hn, hnsi, hss', hmin⟩
          match k with
          | 0 => exact absurd (show F ⊂ t.toFinset by simpa using hss') hss
          | k' + 1 =>
            refine ⟨k', by simpa using hk, by omega, hnsi, by simpa using hss', ?_⟩
            intro m hm
            rcases hmin (m + 1) (by omega) with he | hne
            · exact Or.inl (by omega)
            · exact Or.inr (by simpa using hne)

/-- Helper: the neighbor row stored for simplex `i`. -/
theorem build_neighbors_entry (L : List (List ℕ)) (i : ℕ) (hi : i < L.length) :
    (build_neighbors L).getD i [] = simplex_neighbors L i (L.getD i []) := by
  have hi' : i < (build_neighbors L).length := by simpa [build_neighbors] using hi
  rw [List.getD_eq_getElem _ _ hi', List.getD_eq_getElem _ _ hi]
  simp [build_neighbors]

/-- Helper: the neighbor entry stored opposite vertex position `vi`. -/
theorem simplex_neighbors_entry (L : List (List ℕ)) (i : ℕ) (s : List ℕ) (vi : ℕ)
    (hvi : vi < s.length) :
    (simplex_neighbors L i s).getD vi none =
      find_neighbor L i (face_to_match s vi) 0 := by
  have hvi' : vi < (simplex_neighbors L i s).length := by
    simpa [simplex_neighbors] using hvi
  rw [List.getD_eq_getElem _ _ hvi']
  simp [simplex_neighbors]

/-- The spec-worded neighbor rule: form the 3-element set of the other
vertices and scan all simplices in iteration order; the first one, other
than the simplex being processed, whose vertex set strictly contains that
set is the neighbor, else `none`. -/
def spec_neighbor (simplices : List (List ℕ)) (i vi : ℕ) : Option ℕ :=
  (List.range simplices.length).find? fun j =>
    decide (j ≠ i ∧
      face_to_match (simplices.getD i []) vi ⊂ (simplices.getD j []).toFinset)

/-- Helper: `find?` over an append when the left part finds a hit. -/
theorem find_append_left {α : Type} (l1 l2 : List α) (p : α → Bool) (b : α)
    (h : l1.find? p = some b) : (l1 ++ l2).find? p = some b := by
  induction l1 with
  | nil => simp [List.find?] at h
  | cons a t ih =>
    by_cases hp : p a
    · rw [List.find?_cons_of_pos _ hp] at h
      rw [List.cons_append, List.find?_cons_of_pos _ hp]
      exact h
    · rw [List.find?_cons_of_neg _ hp] at h
      rw [List.cons_append, List.find?_cons_of_neg _ hp]
      exact ih h

/-- Helper: `find?` over an append when the left part finds nothing. -/
theorem find_append_right {α : Type} (l1 l2 : List α) (p : α → Bool)
    (h : l1.find? p = none) : (l1 ++ l2).find? p = l2.find? p := by
  induction l1 with
  | nil => simp
  | cons a t ih =>
    by_cases hp : p a
    · rw [List.find?_cons_of_pos _ hp] at h
      exact absurd h (by simp)
    · rw [List.find?_cons_of_neg _ hp] at h
      rw [List.cons_append, List.find?_cons_of_neg _ hp]
      exact ih h

/-- Helper: `find?` over `range N` returns the least index satisfying the
predicate. -/
theorem find_range_eq_some (N n : ℕ) (p : ℕ → Bool)
    (hn : n < N) (hp : p n = true) (hmin : ∀ m, m < n → p m = false) :
    (List.range N).find? p = some n := by
  induction N with
  | zero => omega
  | succ N ih =>
    rw [List.range_succ]
    by_cases hnN : n < N
    · exact find_append_left _ _ _ _ (ih hnN)
    · have hnn : n = N := by omega
      have hnone : (List.range N).find? p = none := by
        rw [List.find?_eq_none]
        intro x hx
        have hxN : x < N := List.mem_range.mp hx
        simp [hmin x (by omega)]
      rw [find_append_right _ _ _ hnone, ← hnn, List.find?_cons_of_pos _ hp]

/-- Helper: `find?` over `range N` finds nothing when no index qualifies. -/
theorem find_range_eq_none (N : ℕ) (p : ℕ → Bool)
    (hall : ∀ m, m < N → p m = false) :
    (List.range N).find? p = none := by
  rw [List.find?_eq_none]
  intro x hx
  simp [hall x (List.mem_range.mp hx)]

/-- C6: for every list of simplices, each recorded neighbor entry (simplex
`i`, vertex position `vi`) is exactly the spec rule: form the 3-element set
of the other three vertices and scan all other simplices in iteration
order; the first one whose vertex set strictly contains that set is
recorded, and if none exists the entry is null. -/
theorem neighbor_entry_matches_spec (L : List (List ℕ)) (i vi : ℕ)
    (hi : i < L.length) (hvi : vi < (L.getD i []).length) :
    ((build_neighbors L).getD i []).getD vi none = spec_neighbor L i vi := by
  rw [build_neighbors_entry L i hi, simplex_neighbors_entry L i _ vi hvi]
  unfold spec_neighbor
  cases hfn : find_neighbor L i (face_to_match (L.getD i []) vi) 0 with
  | none =>
    rw [find_neighbor_none_iff] at hfn
    refine (find_range_eq_none _ _ ?_).symm
    intro m hm
    rw [decide_eq_false_iff_not]
    rcases hfn m hm with he | hne
    · rintro ⟨hmi, -⟩
      exact hmi (by omega)
    · rintro ⟨-, hcon⟩
      exact hne hcon
  | some n =>
    rw [find_neighbor_some_iff] at hfn
    obtain ⟨k, hk, hnk, hni, hss, hmin⟩ := hfn
    have hkn : k = n := by omega
    subst hkn
    refine (find_range_eq_some _ _ _ hk
      (by rw [decide_eq_true_eq]; exact ⟨hni, hss⟩) ?_).symm
    intro m hm
    rw [decide_eq_false_iff_not]
    rcases hmin m hm with he | hne
    · rintro ⟨hmi, -⟩
      exact hmi (by omega)
    · rintro ⟨-, hcon⟩
      exact hne hcon

/-- Witness for C6: the shared-face pair of tetrahedra `[0,1,2,3]` and
`[1,2,3,4]`, checked at simplex 0, vertex position 0. -/
theorem neighbor_entry_matches_spec_witness :
    ((build_neighbors [[0, 1, 2, 3], [1, 2, 3, 4]]).getD 0 []).getD 0 none =
      spec_neighbor [[0, 1, 2, 3], [1, 2, 3, 4]] 0 0 :=
  neighbor_entry_matches_spec [[0, 1, 2, 3], [1, 2, 3, 4]] 0 0 (by decide) (by decide)

/-- Helper: erasing position `i` of a duplicate-free list removes exactly
the element at that position from its finset of members. -/
theorem toFinset_eraseIdx_of_nodup (l : List ℕ) (hl : l.Nodup) :
    ∀ (i : ℕ) (hi : i < l.length),
      (l.eraseIdx i).toFinset = l.toFinset.erase (l.get ⟨i, hi⟩) := by
  induction l with
  | nil =>
    intro i hi
    simp at hi
  | cons a t ih =>
    intro i hi
    match i with
    | 0 =>
      simp only [List.eraseIdx, List.toFinset_cons, List.get]
      rw [Finset.erase_insert (by simpa using (List.nodup_cons.mp hl).1)]
    | m + 1 =>
      have hm : m < t.length := by simpa using hi
      simp only [List.eraseIdx, List.toFinset_cons, List.get]
      rw [ih (List.nodup_cons.mp hl).2 m hm]
      have hane : a ≠ t.get ⟨m, hm⟩ :=
        fun he => (List.nodup_cons.mp hl).1 (he ▸ List.get_mem t m hm)
      rw [Finset.erase_insert_of_ne hane]

/-- Validity of a tetrahedralization for the neighbor search: every simplex
has four distinct vertices, and no three distinct simplices share three
vertices (each triangular face belongs to at most two tetrahedra). -/
def valid_simplices (L : List (List ℕ)) : Prop :=
  (∀ s ∈ L, s.length = 4 ∧ s.Nodup) ∧
    ∀ a, a < L.length → ∀ b, b < L.length → ∀ c, c < L.length →
      a ≠ b → a ≠ c → b ≠ c →
      ((L.getD a []).toFinset ∩ (L.getD b []).toFinset ∩
        (L.getD c []).toFinset).card ≤ 2

/-- C3: for every valid tetrahedralization, the computed neighbor relation
is symmetric: if the neighbor recorded for simplex `s` opposite vertex
position `vi` is `n`, then some entry of simplex `n`'s neighbor row records
`s`, and it sits opposite the vertex of `n` that is not in the shared face
(the face opposite that vertex in `n` is the shared face itself). -/
theorem neighbor_graph_symmetric (L : List (List ℕ)) (hvalid : valid_simplices L)
    (s n vi : ℕ) (hs : s < L.length)
    (hentry : ((build_neighbors L).getD s []).getD vi none = some n) :
    ∃ vi', ((build_neighbors L).getD n []).getD vi' none = some s ∧
      face_to_match (L.getD n []) vi' = face_to_match (L.getD s []) vi := by
  obtain ⟨hshape, hface⟩ := hvalid
  have hsmem : L.getD s [] ∈ L := by
    rw [List.getD_eq_getElem _ _ hs]
    exact List.getElem_mem hs
  obtain ⟨hslen, hsnodup⟩ := hshape _ hsmem
  rw [build_neighbors_entry L s hs] at hentry
  have hvi : vi < (L.getD s []).length := by
    by_contra hcon
    rw [List.getD_eq_default] at hentry
    · exact absurd hentry (by simp)
    · simpa [simplex_neighbors] using (by omega : (L.getD s []).length ≤ vi)
  rw [simplex_neighbors_entry L s _ vi hvi] at hentry
  rw [find_neighbor_some_iff] at hentry
  obtain ⟨k, hkL, hnk, hnse, hss, -⟩ := hentry
  have hkn : k = n := by omega
  subst hkn
  have hnmem : L.getD k [] ∈ L := by
    rw [List.getD_eq_getElem _ _ hkL]
    exact List.getElem_mem hkL
  obtain ⟨hnlen, hnnodup⟩ := hshape _ hnmem
  have hcardF : (face_to_match (L.getD s []) vi).card = 3 := by
    unfold face_to_match
    have hsub : List.Sublist ((L.getD s []).eraseIdx vi) (L.getD s []) :=
      List.eraseIdx_sublist _ vi
    rw [List.toFinset_card_of_nodup (hsnodup.sublist hsub), List.length_eraseIdx,
      if_pos hvi, hslen]
  have hcardVs : (L.getD s []).toFinset.card = 4 := by
    rw [List.toFinset_card_of_nodup hsnodup, hslen]
  have hcardVn : (L.getD k []).toFinset.card = 4 := by
    rw [List.toFinset_card_of_nodup hnnodup, hnlen]
  have hdiff : ((L.getD k []).toFinset \ face_to_match (L.getD s []) vi).Nonempty := by
    rw [Finset.sdiff_nonempty]
    intro hcon
    have := Finset.card_le_card hcon
    omega
  obtain ⟨wv, hwv⟩ := hdiff
  have hwvmem : wv ∈ (L.getD k []).toFinset := (Finset.mem_sdiff.mp hwv).1
  have hwvnF : wv ∉ face_to_match (L.getD s []) vi := (Finset.mem_sdiff.mp hwv).2
  obtain ⟨⟨vi', hvi'⟩, hwveq⟩ := List.mem_iff_get.mp (List.mem_toFinset.mp hwvmem)
  have hkey : face_to_match (L.getD k []) vi' = face_to_match (L.getD s []) vi := by
    unfold face_to_match
    rw [toFinset_eraseIdx_of_nodup _ hnnodup vi' hvi', hwveq]
    refine (Finset.eq_of_subset_of_card_le
      (Finset.subset_erase.mpr ⟨hss.subset, hwvnF⟩) ?_).symm
    rw [Finset.card_erase_of_mem hwvmem]
    omega
  have hFsubVs : face_to_match (L.getD s []) vi ⊂ (L.getD s []).toFinset := by
    refine Finset.ssubset_iff_subset_ne.mpr ⟨?_, ?_⟩
    · intro z hz
      exact List.mem_toFinset.mpr
        ((List.eraseIdx_sublist _ vi).subset (List.mem_toFinset.mp hz))
    · intro he
      rw [he] at hcardF
      omega
  have hfind : find_neighbor L k (face_to_match (L.getD k []) vi') 0 = some s := by
    rw [hkey, find_neighbor_some_iff]
    refine ⟨s, hs, by omega, fun he => hnse he.symm, hFsubVs, ?_⟩
    intro m hm
    by_cases hmk : m = k
    · exact Or.inl (by omega)
    · right
      intro hcon
      have hdistinct1 : m ≠ s := by omega
      have hmL : m < L.length := by omega
      have hsubint : face_to_match (L.getD s []) vi ⊆
          (L.getD m []).toFinset ∩ (L.getD s []).toFinset ∩ (L.getD k []).toFinset :=
        Finset.subset_inter (Finset.subset_inter hcon.subset hFsubVs.subset) hss.subset
      have hcard := Finset.card_le_card hsubint
      have := hface m hmL s hs k hkL hdistinct1 hmk hnse.symm
      omega
  refine ⟨vi', ?_, hkey⟩
  rw [build_neighbors_entry L k hkL, simplex_neighbors_entry L k _ vi' hvi', hfind]

/-- Witness for C3: the valid pair of tetrahedra `[0,1,2,3]`, `[1,2,3,4]`;
simplex 0 records neighbor 1 opposite vertex position 0, and symmetrically
simplex 1 records simplex 0 opposite its vertex not in the shared face. -/
theorem neighbor_graph_symmetric_witness :
    ∃ vi', ((build_neighbors [[0, 1, 2, 3], [1, 2, 3, 4]]).getD 1 []).getD vi' none =
        some 0 ∧
      face_to_match ([[0, 1, 2, 3], [1, 2, 3, 4]].getD 1 []) vi' =
        face_to_match ([[0, 1, 2, 3], [1, 2, 3, 4]].getD 0 []) 0 :=
  neighbor_graph_symmetric [[0, 1, 2, 3], [1, 2, 3, 4]]
    ⟨by decide, by
      intro a ha b hb c hc hab hac hbc
      simp at ha hb hc
      omega⟩ 0 1 0 (by decide) (by decide)

/-! ## Probe serialization (source: `get_all_lightprobe_data`, probe loop) -/

/-- A scene lightprobe object as seen by the serialization loop: location,
the `probe.lightprobe.name` string, and the result of `get_coeff_prop`
(`none` when the custom property is absent or empty). -/
structure LPObject (α : Type) where
  location : ℚ × ℚ × ℚ
  lightprobe_name : String
  coeffs : Option (List α)

/-- One record of the serialized `probes` list. -/
structure ProbeRecord (α : Type) where
  loc : List ℚ
  record_name : Option String
  coeffs : Option (List α)

/-- Python truthiness of a coefficient mapping: `None` and an empty mapping
are falsy (`if not coeffs: continue`). -/
def py_truthy {α : Type} : Option (List α) → Bool
  | none => false
  | some l => !l.isEmpty

/-- The document assembled by `get_all_lightprobe_data`. -/
structure AllData (α : Type) where
  probes : List (ProbeRecord α)
  simplices : List (List ℕ)
  neighbors : List (List (Option ℕ))

/-- Embedding of `get_all_lightprobe_data`: skip probes with falsy
coefficients, scale kept locations by the scene unit scale, emit
`name or None`, feed the kept locations to the opaque Delaunay collaborator
and derive the neighbor structure. -/
def get_all_lightprobe_data {α : Type} (delaunay : List (List ℚ) → List (List ℕ))
    (scale_by : ℚ) (scene_probes : List (LPObject α)) : AllData α :=
  let probe_data := scene_probes.filterMap fun p =>
    if py_truthy p.coeffs then
      some { loc := [p.location.1 * scale_by, p.location.2.1 * scale_by,
               p.location.2.2 * scale_by],
             record_name := if p.lightprobe_name = "" then none
               else some p.lightprobe_name,
             coeffs := p.coeffs : ProbeRecord α }
    else none
  let point_data := probe_data.map fun d => d.loc
  let simplices := delaunay point_data
  { probes := probe_data, simplices := simplices,
    neighbors := build_neighbors simplices }

/-- Helper: a `filterMap` with an `if c then some (f _) else none` body is a
`filter` followed by a `map`. -/
theorem filterMap_if_eq_map_filter {α β : Type} (f : α → β) (c : α → Bool)
    (l : List α) :
    (l.filterMap fun p => if c p then some (f p) else none) =
      (l.filter c).map f := by
  induction l with
  | nil => rfl
  | cons p t ih =>
    by_cases ht : c p
    · simp [List.filterMap_cons, List.filter_cons, ht, ih]
    · simp [List.filterMap_cons, List.filter_cons, ht, ih]

/-- C9: every record in the serialized probes list has a truthy (non-null,
non-empty) coefficient mapping, and the Delaunay input used for the
simplices and neighbor graph consists of exactly the scaled locations of the
kept probes — a skipped probe contributes to neither. -/
theorem serialized_probes_have_coeffs {α : Type}
    (delaunay : List (List ℚ) → List (List ℕ)) (scale_by : ℚ)
    (scene_probes : List (LPObject α)) :
    ((get_all_lightprobe_data delaunay scale_by scene_probes).probes.all
        fun r => py_truthy r.coeffs) = true ∧
      (get_all_lightprobe_data delaunay scale_by scene_probes).simplices =
        delaunay ((scene_probes.filter fun p => py_truthy p.coeffs).map
          fun p => [p.location.1 * scale_by, p.location.2.1 * scale_by,
            p.location.2.2 * scale_by]) := by
  constructor
  · rw [List.all_eq_true]
    intro r hr
    unfold get_all_lightprobe_data at hr
    dsimp only at hr
    rw [List.mem_filterMap] at hr
    obtain ⟨p, hp, hpr⟩ := hr
    by_cases ht : py_truthy p.coeffs
    · rw [if_pos ht, Option.some.injEq] at hpr
      rw [← hpr]
      exact ht
    · rw [if_neg ht] at hpr
      exact absurd hpr (by simp)
  · unfold get_all_lightprobe_data
    dsimp only
    rw [filterMap_if_eq_map_filter
      (fun p : LPObject α =>
        { loc := [p.location.1 * scale_by, p.location.2.1 * scale_by,
            p.location.2.2 * scale_by],
          record_name := if p.lightprobe_name = "" then none
            else some p.lightprobe_name,
          coeffs := p.coeffs : ProbeRecord α })
      (fun p => py_truthy p.coeffs), List.map_map]
    rfl

/-! ## Radiance projection failsafe (source: `sample_icosphere_color`,
`find_intersecting_face`) -/

/-- A tessellated face of the probe mesh with its three per-vertex lightmap
UVs. -/
structure Face where
  v1 : Vec3
  v2 : Vec3
  v3 : Vec3
  uv1 : ℚ × ℚ
  uv2 : ℚ × ℚ
  uv3 : ℚ × ℚ
deriving DecidableEq, Repr

/-- The probe mesh: the uniform object scale (`ob.scale[0]`) and the face
list in tessellation order. -/
structure ProbeMesh where
  scale : ℚ
  faces : List Face
deriving DecidableEq, Repr

/-- The `FAILSAFE_OFFSET = 0.00001` constant. -/
def FAILSAFE_OFFSET : ℚ := 1 / 100000

/-- The fatal condition of the failed `assert(face is not None)`. -/
inductive BakeError
  | noIntersection
deriving DecidableEq, Repr

/-- Embedding of the face scan of `find_intersecting_face`: vertices scaled
uniformly, ray origin at the icosphere center, first accepting face wins. -/
def find_face_aux (scale : ℚ) (ray : Vec3) : List Face → Option (Face × Vec3)
  | [] => none
  | f :: rest =>
    match triangle_intersection (Vec3.smul scale f.v1) (Vec3.smul scale f.v2)
        (Vec3.smul scale f.v3) ray vzero with
    | some location => some (f, location)
    | none => find_face_aux scale ray rest

/-- Embedding of `find_intersecting_face(ob, ray)`. -/
def find_intersecting_face (m : ProbeMesh) (ray : Vec3) : Option (Face × Vec3) :=
  find_face_aux m.scale ray m.faces

/-- Embedding of `sample_lightmap`: blend the face's three UVs with the
barycentric weights and sample the lightmap bilinearly. -/
def sample_lightmap (lightmap : Image) (f : Face) (location : Vec3) :
    Option (ℚ × ℚ × ℚ) :=
  bilinear_interpolate lightmap
    (location.x * f.uv1.1 + location.y * f.uv2.1 + location.z * f.uv3.1,
     location.x * f.uv1.2 + location.y * f.uv2.2 + location.z * f.uv3.2)

/-- The failsafe perturbation: `FAILSAFE_OFFSET` added to each of the three
ray components. -/
def perturb_ray (v : Vec3) : Vec3 :=
  ⟨v.x + FAILSAFE_OFFSET, v.y + FAILSAFE_OFFSET, v.z + FAILSAFE_OFFSET⟩

/-- Embedding of `sample_icosphere_color` from the already-built unit ray
(the `angle_to_ray(theta, phi)` conversion is trigonometric and applied by
the caller): extend the ray by 100, scan for an intersecting face, on
failure perturb once and rescan, and on a second failure abort the probe's
bake (the failing `assert`, modelled as `Except.error`). -/
def sample_icosphere_color (m : ProbeMesh) (lightmap : Image) (unit_ray : Vec3) :
    Except BakeError (Option (ℚ × ℚ × ℚ)) :=
  let ray := Vec3.smul 100 unit_ray
  match find_intersecting_face m ray with
  | some (face, location) => Except.ok (sample_lightmap lightmap face location)
  | none =>
    let ray2 := perturb_ray ray
    match find_intersecting_face m ray2 with
    | some (face, location) => Except.ok (sample_lightmap lightmap face location)
    | none => Except.error BakeError.noIntersection

/-- C5: if the first scan accepts no triangle, the ray is perturbed by
exactly `1e-5` on each component and rescanned exactly once — the result is
then fully determined by that single retry, a second failure being the
fatal, bake-aborting error rather than any partial result; if the first
scan hits, its face is used and no retry happens. -/
theorem failsafe_retry_once (m : ProbeMesh) (lightmap : Image) (unit_ray : Vec3) :
    (find_intersecting_face m (Vec3.smul 100 unit_ray) = none →
      sample_icosphere_color m lightmap unit_ray =
        match find_intersecting_face m (perturb_ray (Vec3.smul 100 unit_ray)) with
        | some (face, location) => Except.ok (sample_lightmap lightmap face location)
        | none => Except.error BakeError.noIntersection) ∧
    (∀ face location,
      find_intersecting_face m (Vec3.smul 100 unit_ray) = some (face, location) →
      sample_icosphere_color m lightmap unit_ray =
        Except.ok (sample_lightmap lightmap face location)) := by
  constructor
  · intro hnone
    unfold sample_icosphere_color
    dsimp only
    rw [hnone]
  · intro face location hsome
    unfold sample_icosphere_color
    dsimp only
    rw [hsome]

/-- Witness for C5: on a mesh with no faces both scans fail, and the bake
of the probe aborts with the fatal error. -/
theorem failsafe_retry_once_witness :
    sample_icosphere_color ⟨1, []⟩ ⟨1, 1, 3, [1, 2, 3]⟩ ⟨1, 0, 0⟩ =
      Except.error BakeError.noIntersection :=
  ((failsafe_retry_once ⟨1, []⟩ ⟨1, 1, 3, [1, 2, 3]⟩ ⟨1, 0, 0⟩).1 rfl).trans rfl

end Lightprobe
